import Mathlib

/-!
Shallow embedding of `Approx_offset_base_2<Kernel>::_offset_polygon` from
`src/Minkowski_sum_2/include/CGAL/Minkowski_sum_2/Approx_offset_base_2.h`,
together with the constructor precondition check.

Modelling conventions:
* The exact number type `NT` (the kernel field type) is modelled by `ℚ`.
* The floating-point front end (the `double` square root `dd`, the derived
  `derr_bound` and the integer denominator seeding of the first guess) is
  IEEE floating-point arithmetic; its outputs enter the exact computation
  only as the rational values `err_bound` and the initial `app_d`.  These
  two values (plus a fuel bound for the `while` loop, whose termination is
  proved separately) are taken as inputs of the embedding, bundled in
  `EdgeOracle`.
* The external primitive `Make_x_monotone_2` (curve decomposition, from the
  traits class, outside this file) is taken as a function parameter
  `mkX : Arc → List XArcPiece`.
* The generic `OutputIterator` is modelled positionally: `*oi = c` writes
  the curve at the current position of a tape (overwriting, or extending
  when at the end) and `++oi` advances the position.  The full emission
  order is additionally recorded in a log.
* The circulator traversal visits the edges in the order determined by
  the polygon orientation; the embedding takes the vertex list already
  in traversal order, so the edges are the consecutive cyclic pairs of
  the input list.
-/

/-- A point of the exact kernel (`Kernel::Point_2`). -/
structure Pt where
  x : ℚ
  y : ℚ
deriving DecidableEq

/-- Squared distance of two points. -/
def sqDist (p q : Pt) : ℚ :=
  (q.x - p.x) ^ 2 + (q.y - p.y) ^ 2

/-- A line a*x + b*y + c = 0 (`Kernel::Line_2`). -/
structure Line where
  a : ℚ
  b : ℚ
  c : ℚ
deriving DecidableEq

/-- Line through two points, directed from the first to the second
(the kernel construction `line_from_pointsC2`). -/
def lineThrough (p q : Pt) : Line :=
  ⟨p.y - q.y, q.x - p.x, p.x * q.y - q.x * p.y⟩

/-- Line through `p` perpendicular to `l`
(the kernel construction `perpendicular_lineC2`). -/
def perpLine (l : Line) (p : Pt) : Line :=
  ⟨-l.b, l.a, l.b * p.x - l.a * p.y⟩

/-- Exact line intersection (`Kernel::Intersect_2` followed by `assign`
to a point): `none` when the lines are parallel or equal, in which case
the assertion `assign_success` of the source fails. -/
def intersectLines (l1 l2 : Line) : Option Pt :=
  let det := l1.a * l2.b - l2.a * l1.b
  if det = 0 then none
  else some ⟨(l1.b * l2.c - l2.b * l1.c) / det, (l2.a * l1.c - l1.a * l2.c) / det⟩

/-- Lexicographic comparison `compare_xy(p, q) == SMALLER`. -/
def ltXY (p q : Pt) : Prop :=
  p.x < q.x ∨ (p.x = q.x ∧ p.y < q.y)

instance (p q : Pt) : Decidable (ltXY p q) := by
  unfold ltXY; infer_instance

/-- Acceptance predicate of the refinement loop (lines 267-270 of the
source): the loop exits exactly when
`|sqr_d - app_d^2| ≤ err_bound` and `app_d > |delta_x|` and
`app_d > |delta_y|`. -/
def accept (sqrD errB adx ady appD : ℚ) : Prop :=
  |sqrD - appD ^ 2| ≤ errB ∧ adx < appD ∧ ady < appD

instance (sqrD errB adx ady appD : ℚ) : Decidable (accept sqrD errB adx ady appD) := by
  unfold accept; infer_instance

/-- One Newton step `app_d = (app_d + sqr_d/app_d) / 2` (line 272). -/
def newtonStep (sqrD appD : ℚ) : ℚ :=
  (appD + sqrD / appD) / 2

/-- The Newton iterate after `n` steps. -/
def newtonIter (sqrD : ℚ) (n : ℕ) (appD : ℚ) : ℚ :=
  (newtonStep sqrD)^[n] appD

/-- The refinement `while` loop (lines 267-274), with explicit fuel:
returns the first iterate satisfying `accept`, or `none` when the fuel
runs out first.  Termination for positive inputs is proved below. -/
def newtonLoop (sqrD errB adx ady : ℚ) : ℕ → ℚ → Option ℚ
  | 0, a => if accept sqrD errB adx ady a then some a else none
  | n + 1, a =>
      if accept sqrD errB adx ady a then some a
      else newtonLoop sqrD errB adx ady n (newtonStep sqrD a)

/-- The bias correction (lines 296-308): for `delta_x < 0` force a lower
bound of the true square root (replace by `sqr_d/app_d` when the current
approximation is above it), for `delta_x > 0` force an upper bound. -/
def biasCorrect (sqrD dx appD : ℚ) : ℚ :=
  let appErr := sqrD - appD ^ 2
  if dx < 0 then (if appErr < 0 then sqrD / appD else appD)
  else (if 0 < appErr then sqrD / appD else appD)

/-- Translation of a vertex by `r * (cos phi, sin phi)` where
`t = tan(phi/2)`, via the rational half-angle identities
`sin = 2t/(1+t^2)`, `cos = (1-t^2)/(1+t^2)` (lines 321-333). -/
def halfAngleOffset (v : Pt) (r t : ℚ) : Pt :=
  let sqT := t ^ 2
  ⟨v.x + r * ((1 - sqT) / (1 + sqT)), v.y + r * (2 * t / (1 + sqT))⟩

/-- An offset segment (`X_monotone_curve_2` built from two points). -/
structure Seg where
  src : Pt
  tgt : Pt
deriving DecidableEq

/-- Result of the per-edge case analysis: the two offset points and the
produced segment(s), each paired with its `dir_right` flag. -/
structure EdgeResult where
  op1 : Pt
  op2 : Pt
  segs : List (Seg × Bool)
deriving DecidableEq

/-- Which of the three per-edge branches (lines 189, 212, 233) is taken. -/
inductive EdgeCase where
  | vertical
  | horizontal
  | general
deriving DecidableEq

/-- The three-way branch dispatch on the signs of `delta_x`, `delta_y`. -/
def classifyEdge (dx dy : ℚ) : EdgeCase :=
  if dx = 0 then .vertical
  else if dy = 0 then .horizontal
  else .general

/-- The values the floating-point front end feeds into the exact
computation of one general edge: `err_bound` (line 252), the initial
`app_d` (line 263), plus a fuel bound for the refinement loop. -/
structure EdgeOracle where
  errB : ℚ
  a0 : ℚ
  fuel : ℕ
deriving DecidableEq

/-- Vertical branch (lines 189-211): shift both endpoints by `(+r, 0)`
when `delta_y > 0`, by `(-r, 0)` otherwise; one segment, whose direction
flag is `delta_y > 0`. -/
def verticalOffset (r : ℚ) (p1 p2 : Pt) (dy : ℚ) : EdgeResult :=
  let s := if 0 < dy then r else -r
  let op1 : Pt := ⟨p1.x + s, p1.y⟩
  let op2 : Pt := ⟨p2.x + s, p2.y⟩
  ⟨op1, op2, [(⟨op1, op2⟩, decide (0 < dy))]⟩

/-- Horizontal branch (lines 212-232): shift both endpoints by `(0, -r)`
when `delta_x > 0`, by `(0, +r)` otherwise; one segment, whose direction
flag is `delta_x > 0`. -/
def horizontalOffset (r : ℚ) (p1 p2 : Pt) (dx : ℚ) : EdgeResult :=
  let s := if 0 < dx then -r else r
  let op1 : Pt := ⟨p1.x, p1.y + s⟩
  let op2 : Pt := ⟨p2.x, p2.y + s⟩
  ⟨op1, op2, [(⟨op1, op2⟩, decide (0 < dx))]⟩

/-- General branch (lines 233-358): run the refinement loop; on zero
approximation error shift both endpoints by the exact vector
`(r*delta_y/app_d, -r*delta_x/app_d)`; otherwise apply the bias
correction, build the two offset points from the tangent half-angles,
and join them through the intersection of the two tangent lines. -/
def generalOffset (o : EdgeOracle) (r : ℚ) (p1 p2 : Pt) (dx dy : ℚ) : Option EdgeResult :=
  let sqrD := dx ^ 2 + dy ^ 2
  match newtonLoop sqrD o.errB |dx| |dy| o.fuel o.a0 with
  | none => none
  | some a =>
      if sqrD - a ^ 2 = 0 then
        let tx := r * dy / a
        let ty := r * (-dx) / a
        let op1 : Pt := ⟨p1.x + tx, p1.y + ty⟩
        let op2 : Pt := ⟨p2.x + tx, p2.y + ty⟩
        some ⟨op1, op2, [(⟨op1, op2⟩, decide (0 < dx))]⟩
      else
        let appD := biasCorrect sqrD dx a
        let tLo := (appD - dy) / (-dx)
        let tUp := (-dx) / (appD + dy)
        let op1 := halfAngleOffset p1 r tLo
        let op2 := halfAngleOffset p2 r tUp
        let l1 := perpLine (lineThrough p1 op1) op1
        let l2 := perpLine (lineThrough p2 op2) op2
        match intersectLines l1 l2 with
        | none => none
        | some midP =>
            some ⟨op1, op2,
              [(⟨op1, midP⟩, decide (ltXY op1 midP)),
               (⟨midP, op2⟩, decide (ltXY midP op2))]⟩

/-- The per-edge offset computation (lines 182-359). -/
def offsetEdge (o : EdgeOracle) (r : ℚ) (p1 p2 : Pt) : Option EdgeResult :=
  let dx := p2.x - p1.x
  let dy := p2.y - p1.y
  match classifyEdge dx dy with
  | .vertical => some (verticalOffset r p1 p2 dy)
  | .horizontal => some (horizontalOffset r p1 p2 dx)
  | .general => generalOffset o r p1 p2 dx dy

/-- The algorithm object: the constructor (lines 81-89) has the
precondition `sign(eps) == POSITIVE`, modelled as a rejecting check;
the derived integer `_inv_sqrt_eps` only seeds the per-edge oracle and
is not needed by any claim. -/
structure ApproxOffsetBase where
  eps : ℚ
deriving DecidableEq

/-- Constructor with its `CGAL_precondition (CGAL::sign (eps) == POSITIVE)`. -/
def mkApproxOffsetBase (eps : ℚ) : Option ApproxOffsetBase :=
  if 0 < eps then some ⟨eps⟩ else none

/-- A circular arc as passed to `Make_x_monotone_2`
(`Curve_2 (center, r, orientation, source, target)`). -/
structure Arc where
  center : Pt
  radius : ℚ
  ccw : Bool
  source : Pt
  target : Pt

/-- One x-monotone sub-arc returned by the external decomposition
primitive; only its `is_directed_right()` flag is consumed here. -/
structure XArcPiece where
  dirRight : Bool

/-- A labeled output curve (`Labeled_curve_2` with its `X_curve_label`).
Modelled from the spec: the three-argument label used in the main loop
carries `is-last = false` (the flag is set only for the final closing
sub-arc); `Labels.h` itself is outside `src/`. -/
structure LabeledCurve where
  dirRight : Bool
  cycleId : ℕ
  index : ℕ
  isLast : Bool
deriving DecidableEq

/-- The positional model of the caller-supplied output iterator plus the
running `curve_index` and a log of every curve assigned to `*oi`, in
emission order. -/
structure OutState where
  tape : List LabeledCurve
  pos : ℕ
  idx : ℕ
  log : List LabeledCurve
deriving DecidableEq

/-- Writing through the output iterator at position `p`: overwrite an
existing slot or extend the tape at its end. -/
def writeAt (t : List LabeledCurve) (p : ℕ) (c : LabeledCurve) : List LabeledCurve :=
  if p < t.length then t.set p c else t ++ [c]

/-- One emission `*oi = Labeled_curve_2 (...)` followed by
`curve_index++`, and by `++oi` exactly when `adv` is true. -/
def emitCurve (adv d : Bool) (cid : ℕ) (last : Bool) (s : OutState) : OutState :=
  let c : LabeledCurve := ⟨d, cid, s.idx, last⟩
  ⟨writeAt s.tape s.pos c, if adv then s.pos + 1 else s.pos, s.idx + 1, s.log ++ [c]⟩

/-- Emission of the x-monotone sub-arcs of a connecting arc in the main
loop (lines 379-390): each sub-arc is written and the iterator advanced. -/
def emitMainPieces (cid : ℕ) (ps : List XArcPiece) (s : OutState) : OutState :=
  ps.foldl (fun s p => emitCurve true p.dirRight cid false s) s

/-- Emission of the offset segment(s) of one edge (lines 396-411). -/
def emitSegs (cid : ℕ) (segs : List (Seg × Bool)) (s : OutState) : OutState :=
  segs.foldl (fun s sb => emitCurve true sb.2 cid false s) s

/-- Emission of the sub-arcs of the closing arc (lines 432-447): each
sub-arc is written and `curve_index` incremented, the final sub-arc is
labeled `is-last = true`, and the output iterator is never advanced
(the source has no `++oi` in this loop). -/
def emitClosingPieces (cid : ℕ) : List XArcPiece → OutState → OutState
  | [], s => s
  | [p], s => emitCurve false p.dirRight cid true s
  | p :: q :: rest, s =>
      emitClosingPieces cid (q :: rest) (emitCurve false p.dirRight cid false s)

/-- The cyclic edge list of the polygon, in traversal order. -/
def edgesOf (vs : List Pt) : List (Pt × Pt) :=
  vs.zip (vs.drop 1 ++ vs.take 1)

/-- The main `do ... while (curr != first)` traversal (lines 166-417):
per edge run the offset computation, for every edge but the first emit
the connecting arc centered at the edge source from the previous `op2`
to the current `op1`, then emit the segment(s).  Returns the stored
`first_op`, the final `op2` and the output state. -/
def offsetLoop (mkX : Arc → List XArcPiece) (orc : ℕ → EdgeOracle) (r : ℚ) (cid : ℕ) :
    List (Pt × Pt) → ℕ → Option Pt → Pt → OutState → Option (Pt × Pt × OutState)
  | [], _, firstOp?, prevOp, s =>
      match firstOp? with
      | some f => some (f, prevOp, s)
      | none => none
  | (v1, v2) :: es, i, firstOp?, prevOp, s =>
      match offsetEdge (orc i) r v1 v2 with
      | none => none
      | some er =>
          let s1 :=
            match firstOp? with
            | none => s
            | some _ => emitMainPieces cid (mkX ⟨v1, r, true, prevOp, er.op1⟩) s
          let s2 := emitSegs cid er.segs s1
          offsetLoop mkX orc r cid es (i + 1) (some (firstOp?.getD er.op1)) er.op2 s2

/-- The whole convolution-cycle computation `_offset_polygon`
(lines 104-450): traverse all edges, then close the cycle with the arc
centered at the first vertex from the last offset point back to the
first offset point and emit its sub-arcs. -/
def offset_polygon (mkX : Arc → List XArcPiece) (orc : ℕ → EdgeOracle)
    (vs : List Pt) (r : ℚ) (cid : ℕ) : Option OutState :=
  match vs with
  | [] => none
  | v0 :: _ =>
      match offsetLoop mkX orc r cid (edgesOf vs) 0 none v0 ⟨[], 0, 0, []⟩ with
      | none => none
      | some (firstOp, lastOp, s) =>
          some (emitClosingPieces cid (mkX ⟨v0, r, true, lastOp, firstOp⟩) s)

/-- The refinement loop only returns values satisfying the acceptance
predicate (it exits exactly when `accept` holds). -/
theorem newtonLoop_accept (sqrD errB adx ady : ℚ) :
    ∀ (n : ℕ) (a0 a : ℚ), newtonLoop sqrD errB adx ady n a0 = some a →
      accept sqrD errB adx ady a := by
  intro n
  induction n with
  | zero =>
    intro a0 a h
    simp only [newtonLoop] at h
    split at h
    · cases h; assumption
    · cases h
  | succ n ih =>
    intro a0 a h
    simp only [newtonLoop] at h
    split at h
    · cases h; assumption
    · exact ih _ a h

/-- C1 counterexample: on the edge `(0,0) → (-1, 9/2)` with radius 1,
`err_bound = 4` and initial guess `app_d = 5` (floating-point front end
with `eps = 4`, where `_inv_sqrt_eps` clamps to 1 and
`dd = sqrt(85/4) ≈ 4.61`, so `app_d = round(dd) = 5` and
`derr_bound = 2*dd*eps*|(dd - 9/2)/(-1)| ≈ 4.05 ≥ 4`): the loop accepts
`app_d = 5` at once, two segments are produced, the bias correction
replaces `app_d` by `sqr_d/app_d = 17/4`, and the accepted-after-bias
value `17/4` violates `app_d > |delta_y| = 9/2`. -/
theorem C1_counterexample :
    (offsetEdge ⟨4, 5, 1⟩ 1 ⟨0, 0⟩ ⟨-1, 9/2⟩).map (fun e => e.segs.length) = some 2 ∧
    newtonLoop ((-1 : ℚ) ^ 2 + (9/2 : ℚ) ^ 2) 4 |(-1 : ℚ)| |(9/2 : ℚ)| 1 5 = some 5 ∧
    ((-1 : ℚ) ^ 2 + (9/2 : ℚ) ^ 2) - 5 ^ 2 ≠ 0 ∧
    biasCorrect ((-1 : ℚ) ^ 2 + (9/2 : ℚ) ^ 2) (-1) 5 = 17/4 ∧
    ¬ accept ((-1 : ℚ) ^ 2 + (9/2 : ℚ) ^ 2) 4 |(-1 : ℚ)| |(9/2 : ℚ)| (17/4) := by
  refine ⟨?_, ?_, ?_, ?_, ?_⟩
  · with_unfolding_all rfl
  · with_unfolding_all rfl
  · norm_num
  · with_unfolding_all rfl
  · exact of_decide_eq_false (by with_unfolding_all rfl)

/-- C1 (amended): for every general edge, the approximation `app_d`
accepted by the refinement loop satisfies the acceptance predicate
`|sqr_d - app_d^2| ≤ err_bound` and `app_d > |delta_x|` and
`app_d > |delta_y|`; the subsequent bias correction may replace it by
`sqr_d / app_d`, for which the predicate need not hold. -/
theorem C1_loop_result_accepted (o : EdgeOracle) (dx dy a : ℚ)
    (h : newtonLoop (dx ^ 2 + dy ^ 2) o.errB |dx| |dy| o.fuel o.a0 = some a) :
    accept (dx ^ 2 + dy ^ 2) o.errB |dx| |dy| a :=
  newtonLoop_accept (dx ^ 2 + dy ^ 2) o.errB |dx| |dy| o.fuel o.a0 a h

/-- Witness for C1 (amended) at the concrete edge of the counterexample. -/
theorem C1_loop_result_accepted_witness :
    accept ((-1 : ℚ) ^ 2 + (9/2 : ℚ) ^ 2) 4 |(-1 : ℚ)| |(9/2 : ℚ)| 5 :=
  C1_loop_result_accepted ⟨4, 5, 1⟩ (-1) (9/2) 5 (by with_unfolding_all rfl)

/-- C4 counterexample: the edge `(0,0) → (3/2, 2)` has exact rational
length `5/2` (since `(5/2)^2 = (3/2)^2 + 2^2`), yet with
`err_bound = 10/3` and initial guess `app_d = 3` (floating-point front
end with `eps = 2`: `_inv_sqrt_eps` clamps to 1, `dd = 2.5` exactly, so
`app_d = int(2.5 + 0.5) = 3` and `derr_bound = 2*2.5*2*|(2.5-2)/1.5| = 10/3`)
the loop accepts `app_d = 3` with nonzero error and the code produces
two offset segments, not one. -/
theorem C4_counterexample :
    (5/2 : ℚ) ^ 2 = (3/2 : ℚ) ^ 2 + (2 : ℚ) ^ 2 ∧
    (offsetEdge ⟨10/3, 3, 1⟩ 1 ⟨0, 0⟩ ⟨3/2, 2⟩).map (fun e => e.segs.length) = some 2 := by
  exact ⟨by norm_num, by with_unfolding_all rfl⟩

/-- C4 (amended): when the accepted approximation has exactly zero
error, `app_d^2 = sqr_d` (so the true edge length is the rational
`|app_d|`), and exactly one segment is produced, both of whose endpoints
are the edge endpoints translated by the exact vector
`(r*delta_y/app_d, -r*delta_x/app_d)`, with direction flag
`(delta_x > 0)`.  A rational true length does not by itself guarantee
this branch: it is taken only when the accepted `app_d` hits the root
exactly. -/
theorem C4_zero_error_single_exact_segment (o : EdgeOracle) (r : ℚ) (p1 p2 : Pt) (a : ℚ)
    (hdx : p2.x - p1.x ≠ 0) (hdy : p2.y - p1.y ≠ 0)
    (hloop : newtonLoop ((p2.x - p1.x) ^ 2 + (p2.y - p1.y) ^ 2) o.errB
      |p2.x - p1.x| |p2.y - p1.y| o.fuel o.a0 = some a)
    (herr : (p2.x - p1.x) ^ 2 + (p2.y - p1.y) ^ 2 - a ^ 2 = 0) :
    offsetEdge o r p1 p2 = some
      ⟨⟨p1.x + r * (p2.y - p1.y) / a, p1.y + r * (-(p2.x - p1.x)) / a⟩,
       ⟨p2.x + r * (p2.y - p1.y) / a, p2.y + r * (-(p2.x - p1.x)) / a⟩,
       [(⟨⟨p1.x + r * (p2.y - p1.y) / a, p1.y + r * (-(p2.x - p1.x)) / a⟩,
          ⟨p2.x + r * (p2.y - p1.y) / a, p2.y + r * (-(p2.x - p1.x)) / a⟩⟩,
         decide (0 < p2.x - p1.x))]⟩ ∧
    |a| ^ 2 = (p2.x - p1.x) ^ 2 + (p2.y - p1.y) ^ 2 := by
  constructor
  · simp only [offsetEdge, classifyEdge, if_neg hdx, if_neg hdy, generalOffset, hloop,
      if_pos herr]
  · rw [sq_abs]; linarith

/-- Witness for C4 (amended): the edge `(0,0) → (3,4)` with radius 1 and
initial guess 5 is accepted immediately with zero error. -/
theorem C4_zero_error_witness :
    offsetEdge ⟨1, 5, 0⟩ 1 ⟨0, 0⟩ ⟨3, 4⟩ = some
      ⟨⟨0 + 1 * (4 - 0) / 5, 0 + 1 * (-(3 - 0)) / 5⟩,
       ⟨3 + 1 * (4 - 0) / 5, 4 + 1 * (-(3 - 0)) / 5⟩,
       [(⟨⟨0 + 1 * (4 - 0) / 5, 0 + 1 * (-(3 - 0)) / 5⟩,
          ⟨3 + 1 * (4 - 0) / 5, 4 + 1 * (-(3 - 0)) / 5⟩⟩,
         decide ((0 : ℚ) < 3 - 0))]⟩ ∧
    |(5 : ℚ)| ^ 2 = ((3 : ℚ) - 0) ^ 2 + ((4 : ℚ) - 0) ^ 2 :=
  C4_zero_error_single_exact_segment ⟨1, 5, 0⟩ 1 ⟨0, 0⟩ ⟨3, 4⟩ 5
    (by norm_num) (by norm_num) (by with_unfolding_all rfl) (by norm_num)

/-- C5: in the two-segment case the bias correction forces a lower
bound of the true root when `delta_x < 0` and an upper bound when
`delta_x > 0`, replacing `app_d` by `sqr_d/app_d` exactly when the
current approximation lies on the wrong side. -/
theorem C5_bias_correction (sqrD dx a : ℚ) (hS : 0 < sqrD) (ha : 0 < a) :
    (dx < 0 → biasCorrect sqrD dx a ^ 2 ≤ sqrD) ∧
    (0 < dx → sqrD ≤ biasCorrect sqrD dx a ^ 2) ∧
    ((dx < 0 ∧ sqrD - a ^ 2 < 0) ∨ (0 < dx ∧ 0 < sqrD - a ^ 2) →
      biasCorrect sqrD dx a = sqrD / a) ∧
    ((dx < 0 ∧ 0 ≤ sqrD - a ^ 2) ∨ (0 < dx ∧ sqrD - a ^ 2 ≤ 0) →
      biasCorrect sqrD dx a = a) := by
  have ha2 : (0 : ℚ) < a ^ 2 := by positivity
  refine ⟨?_, ?_, ?_, ?_⟩
  · intro hdx
    unfold biasCorrect
    rw [if_pos hdx]
    split_ifs with herr
    · rw [div_pow, div_le_iff₀ ha2]
      nlinarith
    · linarith
  · intro hdx
    unfold biasCorrect
    rw [if_neg (by linarith : ¬ dx < 0)]
    split_ifs with herr
    · rw [div_pow, le_div_iff₀ ha2]
      nlinarith
    · linarith
  · rintro (⟨hdx, herr⟩ | ⟨hdx, herr⟩)
    · unfold biasCorrect
      rw [if_pos hdx, if_pos herr]
    · unfold biasCorrect
      rw [if_neg (by linarith : ¬ dx < 0), if_pos herr]
  · rintro (⟨hdx, herr⟩ | ⟨hdx, herr⟩)
    · unfold biasCorrect
      rw [if_pos hdx, if_neg (by linarith : ¬ sqrD - a ^ 2 < 0)]
    · unfold biasCorrect
      rw [if_neg (by linarith : ¬ dx < 0), if_neg (by linarith : ¬ 0 < sqrD - a ^ 2)]

/-- Witness for C5 at `sqr_d = 2`, `delta_x = -1`, `app_d = 2`:
the corrected value squares to at most `sqr_d`. -/
theorem C5_bias_correction_witness : biasCorrect 2 (-1) 2 ^ 2 ≤ 2 :=
  (C5_bias_correction 2 (-1) 2 (by norm_num) (by norm_num)).1 (by norm_num)

/-- C6: a vertical edge (`delta_x = 0`) yields exactly one segment with
both endpoints shifted by `(+r, 0)` when `delta_y > 0` and `(-r, 0)`
otherwise, with direction flag `(delta_y > 0)`; a horizontal edge
(`delta_y = 0`, which on a polygon edge forces `delta_x ≠ 0`) yields
exactly one segment with both endpoints shifted by `(0, -r)` when
`delta_x > 0` and `(0, +r)` otherwise, with direction flag
`(delta_x > 0)`.  Both shifts are exact. -/
theorem C6_degenerate_edges (o : EdgeOracle) (r : ℚ) (p1 p2 : Pt) :
    (p2.x - p1.x = 0 →
      offsetEdge o r p1 p2 = some
        ⟨⟨p1.x + (if 0 < p2.y - p1.y then r else -r), p1.y⟩,
         ⟨p2.x + (if 0 < p2.y - p1.y then r else -r), p2.y⟩,
         [(⟨⟨p1.x + (if 0 < p2.y - p1.y then r else -r), p1.y⟩,
            ⟨p2.x + (if 0 < p2.y - p1.y then r else -r), p2.y⟩⟩,
           decide (0 < p2.y - p1.y))]⟩) ∧
    (p2.y - p1.y = 0 → p2.x - p1.x ≠ 0 →
      offsetEdge o r p1 p2 = some
        ⟨⟨p1.x, p1.y + (if 0 < p2.x - p1.x then -r else r)⟩,
         ⟨p2.x, p2.y + (if 0 < p2.x - p1.x then -r else r)⟩,
         [(⟨⟨p1.x, p1.y + (if 0 < p2.x - p1.x then -r else r)⟩,
            ⟨p2.x, p2.y + (if 0 < p2.x - p1.x then -r else r)⟩⟩,
           decide (0 < p2.x - p1.x))]⟩) := by
  constructor
  · intro hdx
    simp only [offsetEdge, classifyEdge, if_pos hdx, verticalOffset]
  · intro hdy hdx
    simp only [offsetEdge, classifyEdge, if_neg hdx, if_pos hdy, horizontalOffset]

/-- Witness for C6 on the vertical edge `(0,0) → (0,2)` with `r = 1`. -/
theorem C6_degenerate_edges_witness :
    offsetEdge ⟨1, 1, 0⟩ 1 ⟨0, 0⟩ ⟨0, 2⟩ = some
      ⟨⟨1, 0⟩, ⟨1, 2⟩, [(⟨⟨1, 0⟩, ⟨1, 2⟩⟩, true)]⟩ := by
  have h := (C6_degenerate_edges ⟨1, 1, 0⟩ 1 ⟨0, 0⟩ ⟨0, 2⟩).1 (by norm_num)
  rw [h]
  norm_num

/-- C10: on an edge between two distinct vertices the deltas cannot both
vanish, so the assertion of the vertical branch holds and the three-way
branch dispatch is exhaustive and mutually exclusive: each edge falls in
exactly one of the vertical, horizontal and general cases. -/
theorem C10_case_analysis (p1 p2 : Pt) (h : p1 ≠ p2) :
    (p2.x - p1.x = 0 → p2.y - p1.y ≠ 0) ∧
    (classifyEdge (p2.x - p1.x) (p2.y - p1.y) = .vertical ↔
      p2.x - p1.x = 0 ∧ p2.y - p1.y ≠ 0) ∧
    (classifyEdge (p2.x - p1.x) (p2.y - p1.y) = .horizontal ↔
      p2.y - p1.y = 0 ∧ p2.x - p1.x ≠ 0) ∧
    (classifyEdge (p2.x - p1.x) (p2.y - p1.y) = .general ↔
      p2.x - p1.x ≠ 0 ∧ p2.y - p1.y ≠ 0) := by
  have key : ¬(p2.x - p1.x = 0 ∧ p2.y - p1.y = 0) := by
    rintro ⟨hx, hy⟩
    apply h
    have hx2 : p1.x = p2.x := by linarith
    have hy2 : p1.y = p2.y := by linarith
    cases p1
    cases p2
    simp only [Pt.mk.injEq]
    exact ⟨hx2, hy2⟩
  by_cases hx : p2.x - p1.x = 0
  · have hy : p2.y - p1.y ≠ 0 := fun hy => key ⟨hx, hy⟩
    unfold classifyEdge
    rw [if_pos hx]
    refine ⟨fun _ => hy, ?_, ?_, ?_⟩
    · simp [hx, hy]
    · simp [hx]
    · simp [hx]
  · unfold classifyEdge
    rw [if_neg hx]
    by_cases hy : p2.y - p1.y = 0
    · rw [if_pos hy]
      refine ⟨fun h0 => absurd h0 hx, ?_, ?_, ?_⟩
      · simp [hx]
      · simp [hy, hx]
      · simp [hy]
    · rw [if_neg hy]
      refine ⟨fun h0 => absurd h0 hx, ?_, ?_, ?_⟩
      · simp [hx]
      · simp [hy]
      · simp [hx, hy]

/-- Witness for C10 on the edge `(0,0) → (1,2)`: the general branch is
taken. -/
theorem C10_case_analysis_witness :
    classifyEdge ((⟨1, 2⟩ : Pt).x - (⟨0, 0⟩ : Pt).x)
      ((⟨1, 2⟩ : Pt).y - (⟨0, 0⟩ : Pt).y) = .general :=
  (C10_case_analysis ⟨0, 0⟩ ⟨1, 2⟩ (by simp)).2.2.2.mpr ⟨by norm_num, by norm_num⟩

/-- For every rational tangent half-angle `t`, the half-angle
construction lands at exact squared distance `r^2` from the vertex:
this is the identity `(2t/(1+t^2))^2 + ((1-t^2)/(1+t^2))^2 = 1`. -/
theorem sqDist_halfAngleOffset (v : Pt) (r t : ℚ) :
    sqDist v (halfAngleOffset v r t) = r ^ 2 := by
  have h : (1 + t ^ 2) ≠ 0 := by positivity
  unfold sqDist halfAngleOffset
  field_simp
  ring

/-- C9: in every branch of the per-edge case analysis, the computed
offset points `op1` and `op2` lie at exact squared distance `r^2` from
their polygon vertices: by direct cancellation in the axis-aligned
branches, by `app_d^2 = sqr_d` in the rational-length branch, and by the
rational half-angle identity in the two-segment branch. -/
theorem C9_offset_points_on_circle (o : EdgeOracle) (r : ℚ) (p1 p2 : Pt) (er : EdgeResult)
    (h : offsetEdge o r p1 p2 = some er) :
    sqDist p1 er.op1 = r ^ 2 ∧ sqDist p2 er.op2 = r ^ 2 := by
  simp only [offsetEdge] at h
  split at h
  -- vertical branch
  case _ heq =>
    cases h
    unfold verticalOffset sqDist
    constructor <;> (split_ifs <;> ring)
  -- horizontal branch
  case _ heq =>
    cases h
    unfold horizontalOffset sqDist
    constructor <;> (split_ifs <;> ring)
  -- general branch
  case _ heq =>
    have hdx : p2.x - p1.x ≠ 0 := by
      unfold classifyEdge at heq
      split_ifs at heq
      assumption
    simp only [generalOffset] at h
    split at h
    · exact absurd h (by simp)
    case _ a hl =>
      have hacc := newtonLoop_accept _ _ _ _ _ _ _ hl
      have ha : 0 < a := lt_of_le_of_lt (abs_nonneg _) hacc.2.1
      have hane : a ≠ 0 := ne_of_gt ha
      split_ifs at h with herr
      · cases h
        have hsq : a ^ 2 = (p2.x - p1.x) ^ 2 + (p2.y - p1.y) ^ 2 := by linarith
        constructor
        · unfold sqDist
          field_simp
          linear_combination r ^ 2 * herr
        · unfold sqDist
          field_simp
          linear_combination r ^ 2 * herr
      · split at h
        · exact absurd h (by simp)
        · cases h
          exact ⟨sqDist_halfAngleOffset p1 r _, sqDist_halfAngleOffset p2 r _⟩

/-- Witness for C9 on the vertical edge `(0,0) → (0,2)` with `r = 1`. -/
theorem C9_offset_points_on_circle_witness :
    sqDist ⟨0, 0⟩ ⟨1, 0⟩ = (1 : ℚ) ^ 2 ∧ sqDist ⟨0, 2⟩ ⟨1, 2⟩ = (1 : ℚ) ^ 2 :=
  C9_offset_points_on_circle ⟨1, 1, 0⟩ 1 ⟨0, 0⟩ ⟨0, 2⟩
    ⟨⟨1, 0⟩, ⟨1, 2⟩, [(⟨⟨1, 0⟩, ⟨1, 2⟩⟩, true)]⟩ (by with_unfolding_all rfl)

/-- A decomposition oracle returning one x-monotone piece per arc. -/
def mkXone : Arc → List XArcPiece := fun _ => [⟨true⟩]

/-- A decomposition oracle returning two x-monotone pieces per arc. -/
def mkXtwo : Arc → List XArcPiece := fun _ => [⟨false⟩, ⟨true⟩]

/-- A default per-edge oracle (unused on axis-aligned edges). -/
def orcDefault : ℕ → EdgeOracle := fun _ => ⟨1, 1, 0⟩

/-- The counterclockwise unit square. -/
def squareVs : List Pt := [⟨0, 0⟩, ⟨1, 0⟩, ⟨1, 1⟩, ⟨0, 1⟩]

/-- C2 at its failing input: on the unit square with `r = 1/2`, with the
closing arc decomposed into two x-monotone sub-arcs, the main loop emits
10 curves with 10 iterator advances, and the closing loop then assigns
both of its sub-arcs through the output iterator without ever advancing
it: the 12 emitted curves occupy only 11 tape positions (the second
closing sub-arc overwrites the first) and the returned iterator stands
at position 10, not past the end.  The source omits `++oi` in the
closing loop (lines 432-447) although its documentation promises a
past-the-end return value and the main loop (lines 384-411) advances
after every emission. -/
theorem C2_closing_loop_drops_output :
    (offset_polygon mkXtwo orcDefault squareVs (1/2) 0).map
      (fun s => (s.log.length, s.tape.length, s.pos)) = some (12, 11, 10) := by
  with_unfolding_all rfl

/-- C8 counterexample: neither `radius ≤ 0` nor a polygon with fewer
than 3 vertices is rejected: the traversal runs to completion on a
2-vertex polygon with `r = -1` and emits 4 curves. -/
theorem C8_counterexample :
    (-1 : ℚ) ≤ 0 ∧
    ([(⟨0, 0⟩ : Pt), ⟨0, 1⟩] : List Pt).length < 3 ∧
    (offset_polygon mkXone orcDefault [⟨0, 0⟩, ⟨0, 1⟩] (-1) 0).map
      (fun s => s.log.length) = some 4 := by
  exact ⟨by norm_num, by norm_num, by with_unfolding_all rfl⟩

/-- C8 (amended): the only precondition this code checks is
`eps > 0`, at construction of the algorithm object (and hence exactly
once, not per edge: the traversal takes no `eps` at all); `radius ≤ 0`
and polygons with fewer than 3 vertices are not rejected here. -/
theorem C8_eps_checked_at_construction (eps : ℚ) :
    (mkApproxOffsetBase eps).isSome = true ↔ 0 < eps := by
  unfold mkApproxOffsetBase
  split_ifs with h <;> simp [h]

/-- A Newton step from a positive value stays positive. -/
theorem newtonStep_pos (sqrD a : ℚ) (hS : 0 < sqrD) (ha : 0 < a) :
    0 < newtonStep sqrD a := by
  unfold newtonStep
  have h1 : 0 < sqrD / a := div_pos hS ha
  linarith

/-- Cast of a Newton step to the reals. -/
theorem newtonStep_cast (sqrD a : ℚ) :
    ((newtonStep sqrD a : ℚ) : ℝ) = ((a : ℝ) + (sqrD : ℝ) / (a : ℝ)) / 2 := by
  unfold newtonStep
  push_cast
  ring

/-- After one Newton step the iterate is at least the true square root
(arithmetic-geometric mean inequality). -/
theorem sqrt_le_newtonStep (sqrD a : ℚ) (hS : 0 < sqrD) (ha : 0 < a) :
    Real.sqrt (sqrD : ℝ) ≤ ((newtonStep sqrD a : ℚ) : ℝ) := by
  rw [newtonStep_cast]
  have hx0 : (0 : ℝ) < (a : ℝ) := by exact_mod_cast ha
  have hS0 : (0 : ℝ) < (sqrD : ℝ) := by exact_mod_cast hS
  have hs2 : Real.sqrt (sqrD : ℝ) ^ 2 = (sqrD : ℝ) := Real.sq_sqrt hS0.le
  have hkey : ((a : ℝ) + (sqrD : ℝ) / (a : ℝ)) / 2 - Real.sqrt (sqrD : ℝ) =
      ((a : ℝ) - Real.sqrt (sqrD : ℝ)) ^ 2 / (2 * (a : ℝ)) := by
    field_simp
    linear_combination (-2 * (a : ℝ)) * hs2
  have hnn : (0 : ℝ) ≤ ((a : ℝ) - Real.sqrt (sqrD : ℝ)) ^ 2 / (2 * (a : ℝ)) := by
    positivity
  linarith [hkey ▸ hnn]

/-- From a value at least the root, a Newton step at least halves the
distance to the root and does not increase the value. -/
theorem newtonStep_err (sqrD a : ℚ) (hS : 0 < sqrD) (ha : 0 < a)
    (hge : Real.sqrt (sqrD : ℝ) ≤ (a : ℝ)) :
    ((newtonStep sqrD a : ℚ) : ℝ) - Real.sqrt (sqrD : ℝ) ≤
      ((a : ℝ) - Real.sqrt (sqrD : ℝ)) / 2 ∧
    newtonStep sqrD a ≤ a := by
  have hx0 : (0 : ℝ) < (a : ℝ) := by exact_mod_cast ha
  have hS0 : (0 : ℝ) < (sqrD : ℝ) := by exact_mod_cast hS
  have hs2 : Real.sqrt (sqrD : ℝ) ^ 2 = (sqrD : ℝ) := Real.sq_sqrt hS0.le
  have hs0 : (0 : ℝ) ≤ Real.sqrt (sqrD : ℝ) := Real.sqrt_nonneg _
  have hdiv : (sqrD : ℝ) / (a : ℝ) ≤ Real.sqrt (sqrD : ℝ) := by
    rw [div_le_iff₀ hx0]
    nlinarith
  have hstep : ((newtonStep sqrD a : ℚ) : ℝ) ≤ ((a : ℝ) + Real.sqrt (sqrD : ℝ)) / 2 := by
    rw [newtonStep_cast]
    linarith
  constructor
  · linarith
  · have hr : ((newtonStep sqrD a : ℚ) : ℝ) ≤ (a : ℝ) := by linarith
    exact_mod_cast hr

/-- Properties of the Newton iterates after at least one step: they are
positive, at least the true root, within `(a1 - root)/2^k` of the root,
and bounded by the first iterate `a1`. -/
theorem newtonIter_props (sqrD a0 : ℚ) (hS : 0 < sqrD) (ha0 : 0 < a0) (k : ℕ) :
    0 < newtonIter sqrD (k + 1) a0 ∧
    Real.sqrt (sqrD : ℝ) ≤ ((newtonIter sqrD (k + 1) a0 : ℚ) : ℝ) ∧
    ((newtonIter sqrD (k + 1) a0 : ℚ) : ℝ) - Real.sqrt (sqrD : ℝ) ≤
      (((newtonStep sqrD a0 : ℚ) : ℝ) - Real.sqrt (sqrD : ℝ)) / 2 ^ k ∧
    newtonIter sqrD (k + 1) a0 ≤ newtonStep sqrD a0 := by
  induction k with
  | zero =>
    have h1 : newtonIter sqrD 1 a0 = newtonStep sqrD a0 := by
      unfold newtonIter
      exact Function.iterate_one _ ▸ rfl
    rw [h1]
    exact ⟨newtonStep_pos _ _ hS ha0, sqrt_le_newtonStep _ _ hS ha0, by simp, le_refl _⟩
  | succ k ih =>
    obtain ⟨hpos, hge, herr, hle⟩ := ih
    have hsucc : newtonIter sqrD (k + 2) a0 = newtonStep sqrD (newtonIter sqrD (k + 1) a0) := by
      unfold newtonIter
      exact Function.iterate_succ_apply' _ _ _
    rw [hsucc]
    have h1 := newtonStep_pos sqrD _ hS hpos
    have h2 := sqrt_le_newtonStep sqrD _ hS hpos
    have h3 := newtonStep_err sqrD _ hS hpos hge
    refine ⟨h1, h2, ?_, le_trans h3.2 hle⟩
    have h2k : (0 : ℝ) < 2 ^ k := by positivity
    have hhalf : (((newtonIter sqrD (k + 1) a0 : ℚ) : ℝ) - Real.sqrt (sqrD : ℝ)) / 2 ≤
        ((((newtonStep sqrD a0 : ℚ) : ℝ) - Real.sqrt (sqrD : ℝ)) / 2 ^ k) / 2 :=
      (div_le_div_iff_of_pos_right (by norm_num)).mpr herr
    calc ((newtonStep sqrD (newtonIter sqrD (k + 1) a0) : ℚ) : ℝ) - Real.sqrt (sqrD : ℝ)
        ≤ (((newtonIter sqrD (k + 1) a0 : ℚ) : ℝ) - Real.sqrt (sqrD : ℝ)) / 2 := h3.1
      _ ≤ ((((newtonStep sqrD a0 : ℚ) : ℝ) - Real.sqrt (sqrD : ℝ)) / 2 ^ k) / 2 := hhalf
      _ = (((newtonStep sqrD a0 : ℚ) : ℝ) - Real.sqrt (sqrD : ℝ)) / 2 ^ (k + 1) := by
          rw [div_div, ← pow_succ]

/-- On a general edge the true root strictly dominates both absolute
deltas: `|delta_x| < sqrt(sqr_d)` and `|delta_y| < sqrt(sqr_d)`. -/
theorem abs_lt_sqrt_sqrD (dx dy : ℚ) (hdx : dx ≠ 0) (hdy : dy ≠ 0) :
    ((|dx| : ℚ) : ℝ) < Real.sqrt ((dx ^ 2 + dy ^ 2 : ℚ) : ℝ) ∧
    ((|dy| : ℚ) : ℝ) < Real.sqrt ((dx ^ 2 + dy ^ 2 : ℚ) : ℝ) := by
  have hdx2 : (0 : ℝ) < (dx : ℝ) ^ 2 := by
    have : (dx : ℝ) ≠ 0 := by exact_mod_cast hdx
    positivity
  have hdy2 : (0 : ℝ) < (dy : ℝ) ^ 2 := by
    have : (dy : ℝ) ≠ 0 := by exact_mod_cast hdy
    positivity
  constructor
  · rw [show ((|dx| : ℚ) : ℝ) = |(dx : ℝ)| by push_cast; rfl]
    rw [Real.lt_sqrt (abs_nonneg _)]
    push_cast
    rw [sq_abs]
    linarith
  · rw [show ((|dy| : ℚ) : ℝ) = |(dy : ℝ)| by push_cast; rfl]
    rw [Real.lt_sqrt (abs_nonneg _)]
    push_cast
    rw [sq_abs]
    linarith

/-- The acceptance predicate eventually holds along the Newton iterates:
C7 existence core. -/
theorem newton_accept_exists (dx dy a0 errB : ℚ)
    (hdx : dx ≠ 0) (hdy : dy ≠ 0) (ha0 : 0 < a0) (heB : 0 < errB) :
    ∃ n, accept (dx ^ 2 + dy ^ 2) errB |dx| |dy| (newtonIter (dx ^ 2 + dy ^ 2) n a0) := by
  have hS : 0 < dx ^ 2 + dy ^ 2 := by
    have h1 : (0 : ℚ) < dx ^ 2 := by positivity
    have h2 : (0 : ℚ) ≤ dy ^ 2 := sq_nonneg dy
    linarith
  set sqrD := dx ^ 2 + dy ^ 2 with hsqrD
  have hS0 : (0 : ℝ) < (sqrD : ℝ) := by exact_mod_cast hS
  set s : ℝ := Real.sqrt (sqrD : ℝ) with hsdef
  have hs0 : (0 : ℝ) ≤ s := Real.sqrt_nonneg _
  have hs2 : s ^ 2 = (sqrD : ℝ) := Real.sq_sqrt hS0.le
  set b := newtonStep sqrD a0 with hbdef
  have hb : Real.sqrt (sqrD : ℝ) ≤ ((b : ℚ) : ℝ) := sqrt_le_newtonStep sqrD a0 hS ha0
  have heB0 : (0 : ℝ) < (errB : ℝ) := by exact_mod_cast heB
  -- choose k with (b - s) * (b + s) / errB < 2 ^ k
  obtain ⟨k, hk⟩ :=
    pow_unbounded_of_one_lt ((((b : ℚ) : ℝ) - s) * (((b : ℚ) : ℝ) + s) / (errB : ℝ))
      (by norm_num : (1 : ℝ) < 2)
  have h2k : (0 : ℝ) < 2 ^ k := by positivity
  have hklt : (((b : ℚ) : ℝ) - s) * (((b : ℚ) : ℝ) + s) < (errB : ℝ) * 2 ^ k := by
    rw [div_lt_iff₀ heB0] at hk
    linarith [mul_comm ((errB : ℝ)) ((2 : ℝ) ^ k)]
  obtain ⟨hpos, hge, herr, hle⟩ := newtonIter_props sqrD a0 hS ha0 k
  set c := newtonIter sqrD (k + 1) a0 with hcdef
  have hcb : ((c : ℚ) : ℝ) ≤ ((b : ℚ) : ℝ) := by exact_mod_cast hle
  have habs := abs_lt_sqrt_sqrD dx dy hdx hdy
  refine ⟨k + 1, ?_, ?_, ?_⟩
  · -- |sqrD - c^2| ≤ errB
    have hcge : (0 : ℝ) ≤ ((c : ℚ) : ℝ) - s := by linarith
    have hup : ((c : ℚ) : ℝ) ^ 2 - (sqrD : ℝ) ≤ (errB : ℝ) := by
      have hfact : ((c : ℚ) : ℝ) ^ 2 - (sqrD : ℝ) =
          (((c : ℚ) : ℝ) - s) * (((c : ℚ) : ℝ) + s) := by
        rw [← hs2]; ring
      have hsum : ((c : ℚ) : ℝ) + s ≤ ((b : ℚ) : ℝ) + s := by linarith
      have hsumnn : (0 : ℝ) ≤ ((c : ℚ) : ℝ) + s := by linarith
      have hbound : (((c : ℚ) : ℝ) - s) * (((c : ℚ) : ℝ) + s) ≤
          ((((b : ℚ) : ℝ) - s) / 2 ^ k) * (((b : ℚ) : ℝ) + s) :=
        mul_le_mul herr hsum hsumnn (div_nonneg (by linarith) h2k.le)
      have hsmall : ((((b : ℚ) : ℝ) - s) / 2 ^ k) * (((b : ℚ) : ℝ) + s) ≤ (errB : ℝ) := by
        rw [div_mul_eq_mul_div, div_le_iff₀ h2k]
        linarith [mul_comm ((errB : ℝ)) ((2 : ℝ) ^ k)]
      linarith [hfact ▸ hbound]
    have hlow : (0 : ℝ) ≤ ((c : ℚ) : ℝ) ^ 2 - (sqrD : ℝ) := by
      have : s ^ 2 ≤ ((c : ℚ) : ℝ) ^ 2 := by nlinarith
      linarith [hs2 ▸ this]
    have habsq : |(sqrD : ℝ) - ((c : ℚ) : ℝ) ^ 2| ≤ (errB : ℝ) := by
      rw [abs_sub_comm, abs_of_nonneg hlow]
      exact hup
    have : |sqrD - c ^ 2| ≤ errB := by
      have hcast : ((|sqrD - c ^ 2| : ℚ) : ℝ) = |(sqrD : ℝ) - ((c : ℚ) : ℝ) ^ 2| := by
        push_cast
        rfl
      rw [← Rat.cast_le (K := ℝ), hcast]
      exact habsq
    exact this
  · -- |dx| < c
    have : ((|dx| : ℚ) : ℝ) < ((c : ℚ) : ℝ) := lt_of_lt_of_le habs.1 hge
    exact_mod_cast this
  · have : ((|dy| : ℚ) : ℝ) < ((c : ℚ) : ℝ) := lt_of_lt_of_le habs.2 hge
    exact_mod_cast this

/-- If some iterate is accepted, the loop with that much fuel returns a
value. -/
theorem newtonLoop_isSome_of_accept (sqrD errB adx ady : ℚ) :
    ∀ (k : ℕ) (a : ℚ), accept sqrD errB adx ady (newtonIter sqrD k a) →
      (newtonLoop sqrD errB adx ady k a).isSome = true := by
  intro k
  induction k with
  | zero =>
    intro a h
    unfold newtonIter at h
    simp only [Function.iterate_zero, id_eq] at h
    simp only [newtonLoop, if_pos h, Option.isSome_some]
  | succ k ih =>
    intro a h
    by_cases hacc : accept sqrD errB adx ady a
    · simp only [newtonLoop, if_pos hacc, Option.isSome_some]
    · have h2 : accept sqrD errB adx ady (newtonIter sqrD k (newtonStep sqrD a)) := by
        unfold newtonIter at h ⊢
        rwa [Function.iterate_succ_apply] at h
      simp only [newtonLoop, if_neg hacc]
      exact ih _ h2

/-- C7: for every general edge (`delta_x ≠ 0`, `delta_y ≠ 0`), every
positive initial approximation and every positive error bound, the
Newton refinement loop terminates: after finitely many iterations the
acceptance predicate holds, and the loop run with that much fuel
returns an accepted value. -/
theorem C7_newton_loop_terminates (dx dy a0 errB : ℚ)
    (hdx : dx ≠ 0) (hdy : dy ≠ 0) (ha0 : 0 < a0) (heB : 0 < errB) :
    ∃ n, accept (dx ^ 2 + dy ^ 2) errB |dx| |dy|
        (newtonIter (dx ^ 2 + dy ^ 2) n a0) ∧
      (newtonLoop (dx ^ 2 + dy ^ 2) errB |dx| |dy| n a0).isSome = true := by
  obtain ⟨n, hn⟩ := newton_accept_exists dx dy a0 errB hdx hdy ha0 heB
  exact ⟨n, hn, newtonLoop_isSome_of_accept _ _ _ _ n a0 hn⟩

/-- Witness for C7 on the edge deltas `(1, 1)` with `a0 = 1`,
`err_bound = 1`. -/
theorem C7_newton_loop_terminates_witness :
    ∃ n, accept ((1 : ℚ) ^ 2 + (1 : ℚ) ^ 2) 1 |(1 : ℚ)| |(1 : ℚ)|
        (newtonIter ((1 : ℚ) ^ 2 + (1 : ℚ) ^ 2) n 1) ∧
      (newtonLoop ((1 : ℚ) ^ 2 + (1 : ℚ) ^ 2) 1 |(1 : ℚ)| |(1 : ℚ)| n 1).isSome = true :=
  C7_newton_loop_terminates 1 1 1 1 (by norm_num) (by norm_num) (by norm_num) (by norm_num)

/-- Index lookup in a list extended by one element. -/
theorem getElem?_append_single {α : Type} (l : List α) (c : α) (i : ℕ) (x : α)
    (h : (l ++ [c])[i]? = some x) :
    (i < l.length ∧ l[i]? = some x) ∨ (i = l.length ∧ x = c) := by
  by_cases hi : i < l.length
  · left
    refine ⟨hi, ?_⟩
    rw [List.getElem?_append, if_pos hi] at h
    exact h
  · right
    push_neg at hi
    rcases Nat.eq_or_lt_of_le hi with heq | hlt
    · rw [← heq] at h
      rw [List.getElem?_concat_length] at h
      exact ⟨heq.symm, (Option.some_inj.mp h).symm⟩
    · exfalso
      have hlen : (l ++ [c]).length ≤ i := by
        simp only [List.length_append, List.length_cons, List.length_nil]
        omega
      rw [List.getElem?_eq_none hlen] at h
      cases h

/-- Invariant of the output state during the main traversal: the running
`curve_index` equals the number of emitted curves, every emitted curve
is stamped with its emission position, and no emitted curve is marked
last yet. -/
def GoodState (s : OutState) : Prop :=
  s.idx = s.log.length ∧
  ∀ (i : ℕ) (c : LabeledCurve), s.log[i]? = some c → c.index = i ∧ c.isLast = false

/-- Emitting one non-final curve preserves the invariant. -/
theorem GoodState_emitCurve (adv d : Bool) (cid : ℕ) (s : OutState)
    (hs : GoodState s) : GoodState (emitCurve adv d cid false s) := by
  obtain ⟨hidx, hlog⟩ := hs
  constructor
  · simp only [emitCurve, List.length_append, List.length_cons, List.length_nil, hidx]
  · intro i c h
    simp only [emitCurve] at h
    rcases getElem?_append_single _ _ _ _ h with ⟨_, h2⟩ | ⟨hi, h2⟩
    · exact hlog i c h2
    · subst h2
      subst hi
      exact ⟨hidx, rfl⟩

/-- Folding non-final emissions preserves the invariant. -/
theorem GoodState_foldl_emit {α : Type} (cid : ℕ) (f : α → Bool) (adv : Bool) :
    ∀ (l : List α) (s : OutState), GoodState s →
      GoodState (l.foldl (fun s x => emitCurve adv (f x) cid false s) s) := by
  intro l
  induction l with
  | nil => intro s hs; exact hs
  | cons p rest ih =>
    intro s hs
    exact ih _ (GoodState_emitCurve _ _ _ _ hs)

/-- The connecting-arc emission preserves the invariant. -/
theorem GoodState_emitMainPieces (cid : ℕ) (ps : List XArcPiece) (s : OutState)
    (hs : GoodState s) : GoodState (emitMainPieces cid ps s) := by
  unfold emitMainPieces
  exact GoodState_foldl_emit cid (fun p => p.dirRight) true ps s hs

/-- The segment emission preserves the invariant. -/
theorem GoodState_emitSegs (cid : ℕ) (segs : List (Seg × Bool)) (s : OutState)
    (hs : GoodState s) : GoodState (emitSegs cid segs s) := by
  unfold emitSegs
  exact GoodState_foldl_emit cid (fun sb => sb.2) true segs s hs

/-- The whole main traversal preserves the invariant. -/
theorem GoodState_offsetLoop (mkX : Arc → List XArcPiece) (orc : ℕ → EdgeOracle)
    (r : ℚ) (cid : ℕ) :
    ∀ (es : List (Pt × Pt)) (i : ℕ) (fo? : Option Pt) (po : Pt) (s : OutState)
      (f lp : Pt) (s2 : OutState),
      offsetLoop mkX orc r cid es i fo? po s = some (f, lp, s2) →
      GoodState s → GoodState s2 := by
  intro es
  induction es with
  | nil =>
    intro i fo? po s f lp s2 h hs
    cases fo? with
    | none =>
      simp only [offsetLoop] at h
      exact Option.noConfusion h
    | some g =>
      simp only [offsetLoop, Option.some_inj, Prod.mk.injEq] at h
      obtain ⟨h1, h2, h3⟩ := h
      subst h3
      exact hs
  | cons e rest ih =>
    intro i fo? po s f lp s2 h hs
    obtain ⟨v1, v2⟩ := e
    simp only [offsetLoop] at h
    cases her : offsetEdge (orc i) r v1 v2 with
    | none => rw [her] at h; simp at h
    | some er =>
      rw [her] at h
      simp only [] at h
      cases fo? with
      | none =>
        simp only [] at h
        exact ih _ _ _ _ _ _ _ h (GoodState_emitSegs _ _ _ hs)
      | some g =>
        simp only [] at h
        exact ih _ _ _ _ _ _ _ h
          (GoodState_emitSegs _ _ _ (GoodState_emitMainPieces _ _ _ hs))

/-- Specification of the closing-arc emission: the sub-arcs are appended
to the log with consecutive indices continuing the running counter, and
exactly the final sub-arc is marked last. -/
theorem emitClosingPieces_spec (cid : ℕ) :
    ∀ (ps : List XArcPiece) (s : OutState), GoodState s → ps ≠ [] →
      (emitClosingPieces cid ps s).log.length = s.log.length + ps.length ∧
      ∀ (i : ℕ) (c : LabeledCurve), (emitClosingPieces cid ps s).log[i]? = some c →
        c.index = i ∧ (c.isLast = true ↔ i + 1 = s.log.length + ps.length) := by
  intro ps
  induction ps with
  | nil => intro s _ hne; exact absurd rfl hne
  | cons p rest ih =>
    intro s hs hne
    obtain ⟨hidx, hlog⟩ := hs
    cases rest with
    | nil =>
      simp only [emitClosingPieces]
      constructor
      · simp [emitCurve]
      · intro i c h
        simp only [emitCurve] at h
        rcases getElem?_append_single _ _ _ _ h with ⟨hi, h2⟩ | ⟨hi, h2⟩
        · obtain ⟨hind, hlast⟩ := hlog i c h2
          refine ⟨hind, ?_⟩
          rw [hlast]
          simp only [List.length_cons, List.length_nil]
          constructor
          · intro hf; cases hf
          · intro hii; omega
        · subst h2
          subst hi
          refine ⟨hidx, ?_⟩
          simp
    | cons q rest2 =>
      have hstep : emitClosingPieces cid (p :: q :: rest2) s =
          emitClosingPieces cid (q :: rest2) (emitCurve false p.dirRight cid false s) := rfl
      rw [hstep]
      have hgood : GoodState (emitCurve false p.dirRight cid false s) :=
        GoodState_emitCurve false p.dirRight cid s ⟨hidx, hlog⟩
      obtain ⟨hlen, hprop⟩ := ih (emitCurve false p.dirRight cid false s) hgood (by simp)
      have hlen2 : (emitCurve false p.dirRight cid false s).log.length = s.log.length + 1 := by
        simp [emitCurve]
      constructor
      · rw [hlen, hlen2]
        simp only [List.length_cons]
        omega
      · intro i c h
        obtain ⟨hind, hlast⟩ := hprop i c h
        refine ⟨hind, ?_⟩
        rw [hlast, hlen2]
        simp only [List.length_cons]
        omega

/-- C3: for every polygon with at least 3 vertices, positive radius and
a decomposition primitive returning at least one sub-arc per arc, a
completed run stamps the emitted curves of the cycle with the sequence
indices `0, 1, ..., N-1` in emission order (each curve's index is its
emission position), and exactly the last emitted curve carries
`is-last = true`. -/
theorem C3_cycle_labels (mkX : Arc → List XArcPiece) (orc : ℕ → EdgeOracle)
    (vs : List Pt) (r : ℚ) (cid : ℕ) (st : OutState)
    (hvs : 3 ≤ vs.length) (_hr : 0 < r)
    (hmk : ∀ a, mkX a ≠ [])
    (h : offset_polygon mkX orc vs r cid = some st) :
    st.log ≠ [] ∧
    ∀ (i : ℕ) (c : LabeledCurve), st.log[i]? = some c →
      c.index = i ∧ (c.isLast = true ↔ i + 1 = st.log.length) := by
  cases vs with
  | nil => simp at hvs
  | cons v0 rest =>
    simp only [offset_polygon] at h
    cases hl : offsetLoop mkX orc r cid (edgesOf (v0 :: rest)) 0 none v0 ⟨[], 0, 0, []⟩ with
    | none =>
      rw [hl] at h
      exact Option.noConfusion h
    | some t =>
      obtain ⟨f, lp, s⟩ := t
      rw [hl] at h
      simp only [Option.some_inj] at h
      have hg0 : GoodState ⟨[], 0, 0, []⟩ := by
        refine ⟨rfl, ?_⟩
        intro i c hic
        simp at hic
      have hgs : GoodState s :=
        GoodState_offsetLoop mkX orc r cid _ _ _ _ _ _ _ _ hl hg0
      obtain ⟨hlen, hprop⟩ :=
        emitClosingPieces_spec cid (mkX ⟨v0, r, true, lp, f⟩) s hgs (hmk _)
      subst h
      constructor
      · have hpos : 0 < (emitClosingPieces cid (mkX ⟨v0, r, true, lp, f⟩) s).log.length := by
          rw [hlen]
          have : mkX ⟨v0, r, true, lp, f⟩ ≠ [] := hmk _
          have := List.length_pos.mpr this
          omega
        exact List.ne_nil_of_length_pos hpos
      · intro i c hc
        obtain ⟨hind, hlast⟩ := hprop i c hc
        exact ⟨hind, by rw [hlast, hlen]⟩

/-- The output state of a complete run on the counterclockwise unit
square with `r = 1/2` and single-piece arc decomposition. -/
def stSquare : OutState :=
  (offset_polygon mkXone orcDefault squareVs (1/2) 0).getD ⟨[], 0, 0, []⟩

/-- Witness for C3: the first curve emitted for the unit square carries
sequence index 0 and is not the last of the cycle. -/
theorem C3_cycle_labels_witness :
    (⟨true, 0, 0, false⟩ : LabeledCurve).index = 0 ∧
    ((⟨true, 0, 0, false⟩ : LabeledCurve).isLast = true ↔ 0 + 1 = stSquare.log.length) :=
  (C3_cycle_labels mkXone orcDefault squareVs (1/2) 0 stSquare
    (by norm_num [squareVs]) (by norm_num)
    (fun a => by simp [mkXone])
    (by with_unfolding_all rfl)).2 0 ⟨true, 0, 0, false⟩ (by with_unfolding_all rfl)
